import Mathlib

/-!
Verification of `src/openwork-review-summarizer.py`.

The script logs into a review site, paginates through a company's reviews
with a two-year date cutoff, and sends the collected texts to a chat
completion endpoint.  This file shallowly embeds the four functions the
claims are about — `login_to_openwork`, `scrape_reviews`,
`summarize_reviews` and `safe_filename` — and proves the claimed
properties about them.

Modelling conventions:
* HTTP/HTML is abstracted at the BeautifulSoup-selector boundary: a fetched
  listing page is given to the embedding already "parsed", i.e. as the data
  the selectors `#anchor01`, `article.article`,
  `div.article_header-white > p > time` and
  `dd.article_answer` would extract.
* Calendar dates are abstracted to integers (a timestamp scale):
  `datetime.strptime(date_str, "%Y-%m-%d")` succeeding is the `parsed`
  constructor, raising `ValueError` is the `malformed` constructor, and the
  `<` comparison on `datetime` objects becomes `<` on `Int`.
* `requests` exceptions and other runtime exceptions are modelled as
  explicit alternatives of the abstract server's answer.
* The functions additionally return the list of HTTP requests they issue,
  so that "no further request is made" becomes a provable statement.
-/

set_option maxRecDepth 8192

/-- The date information extracted from one `article.article` item.
`absent` covers a missing `time` tag, a missing `datetime` attribute and an
empty (falsy) `datetime` string — in all three cases the Python code skips
the cutoff comparison.  `malformed` is a non-empty `datetime` string that
`datetime.strptime(_, "%Y-%m-%d")` rejects, which raises `ValueError`
inside the page loop. -/
inductive DateField where
  | absent : DateField
  | malformed : DateField
  | parsed : Int → DateField
deriving DecidableEq

/-- One review item of a listing page, as extracted by the selectors:
its date field and the text of `dd.article_answer` (the code substitutes
`""` when that node is missing, so a plain `String` suffices). -/
structure Article where
  date : DateField
  content : String
deriving DecidableEq

/-- One element of the list `scrape_reviews` returns: the dictionary
`{"date": date_str, "content": content_text}`.  A stored date is kept in
its parsed form; `none` stands for the falsy `date_str`. -/
structure Review where
  date : Option Int
  content : String
deriving DecidableEq

/-- The abstract answer of the server to `session.get` for one listing
page, at the granularity the code distinguishes:
* `fetchError` — `session.get` (or anything else in the `try` body before
  the article loop) raises;
* `badStatus` — `response.status_code != 200`;
* `noAnchor` — the parsed document has no `#anchor01` node;
* `page arts` — `#anchor01` is present and `arts` is the (possibly empty)
  list of `article.article` items. -/
inductive PageResponse where
  | fetchError : PageResponse
  | badStatus : PageResponse
  | noAnchor : PageResponse
  | page : List Article → PageResponse
deriving DecidableEq

/-- Outcome of the `for article in article_list` loop of `scrape_reviews`:
the records appended to `all_reviews` by this page, together with how the
loop ended — `finished` (ran through every item), `stopped`
(`stop_scraping = True`, an old dated item was hit), or `raised` (an
exception escaped the loop body, caught by the surrounding `except`). -/
inductive ScanOutcome where
  | finished : List Review → ScanOutcome
  | stopped : List Review → ScanOutcome
  | raised : List Review → ScanOutcome
deriving DecidableEq

/-- The review records of a `ScanOutcome`. -/
def ScanOutcome.recs : ScanOutcome → List Review
  | .finished rs => rs
  | .stopped rs => rs
  | .raised rs => rs

/-- Prepend one appended record to the outcome of the rest of the loop. -/
def consRecord (r : Review) : ScanOutcome → ScanOutcome
  | .finished rs => .finished (r :: rs)
  | .stopped rs => .stopped (r :: rs)
  | .raised rs => .raised (r :: rs)

/-- The record `{"date": date_str, "content": content_text}` built for one
article (only ever used for articles that do not raise). -/
def reviewOfArticle (a : Article) : Review :=
  { date := match a.date with | .parsed d => some d | _ => none,
    content := a.content }

/-- The records of a run of consecutive appended articles. -/
def reviewsOfArticles (arts : List Article) : List Review :=
  arts.map reviewOfArticle

/-- The body of `for article in article_list` in `scrape_reviews`
(lines 185–205 of the source): extract the date string; if it is present
and parses to a date before the cutoff, set `stop_scraping` and break
without appending; if it is present and does not parse, `ValueError`
escapes (`raised`); otherwise append the record and continue. -/
def processArticles (cutoff : Int) : List Article → ScanOutcome
  | [] => .finished []
  | a :: rest =>
    match a.date with
    | .malformed => .raised []
    | .parsed d =>
      if d < cutoff then .stopped []
      else consRecord (reviewOfArticle a) (processArticles cutoff rest)
    | .absent => consRecord (reviewOfArticle a) (processArticles cutoff rest)

/-- The `while page <= max_pages` loop of `scrape_reviews`, with the page
counter and the remaining number of allowed iterations
(`fuel = max_pages - page + 1`) made explicit.  Returns the collected
records together with the page indices requested.  Every loop entry issues
exactly one `session.get`, so every entered page index is recorded, and
each of `fetchError` / `badStatus` / `noAnchor` / empty article list /
`stopped` / `raised` executes `break`. -/
def scrapeAux (pages : Nat → PageResponse) (cutoff : Int) :
    Nat → Nat → List Review × List Nat
  | _, 0 => ([], [])
  | page, fuel + 1 =>
    match pages page with
    | .fetchError => ([], [page])
    | .badStatus => ([], [page])
    | .noAnchor => ([], [page])
    | .page [] => ([], [page])
    | .page (a :: arts) =>
      match processArticles cutoff (a :: arts) with
      | .finished rs =>
        (rs ++ (scrapeAux pages cutoff (page + 1) fuel).1,
         page :: (scrapeAux pages cutoff (page + 1) fuel).2)
      | .stopped rs => (rs, [page])
      | .raised rs => (rs, [page])

/-- `scrape_reviews(session, m_id, logger, max_pages)` (source lines
134–217): the list of review records returned.  The authenticated session
and the company id are abstracted into the server function `pages`; the
cutoff value `datetime.now() - timedelta(days=2*365)` is the parameter
`cutoff`. -/
def scrape_reviews (pages : Nat → PageResponse) (cutoff : Int)
    (maxPages : Nat) : List Review :=
  (scrapeAux pages cutoff 1 maxPages).1

/-- The listing-page indices `scrape_reviews` requests, in order. -/
def scrapeRequests (pages : Nat → PageResponse) (cutoff : Int)
    (maxPages : Nat) : List Nat :=
  (scrapeAux pages cutoff 1 maxPages).2

/-- An article that neither stops nor aborts the scan when reached:
its date field is absent, or parses to a date not before the cutoff. -/
def fineArticle (cutoff : Int) (a : Article) : Bool :=
  match a.date with
  | .absent => true
  | .malformed => false
  | .parsed d => decide (cutoff ≤ d)

/-- The page indices `[start, start+1, ..., start+n-1]`. -/
def pagesFrom (start : Nat) : Nat → List Nat
  | 0 => []
  | n + 1 => start :: pagesFrom (start + 1) n

/-- Concatenation of a list of record lists (page-by-page harvest). -/
def joinLists : List (List Review) → List Review
  | [] => []
  | l :: ls => l ++ joinLists ls

/-! ### Session authenticator (`login_to_openwork`, source lines 17–83) -/

/-- The parsed login page: `soup.find("input", {"name": "_csrf_token"})`
returns no tag (`none`), or a tag whose `value` attribute is absent
(`some none`) or the string `v` (`some (some v)`). -/
structure LoginDoc where
  csrfInput : Option (Option String)
deriving DecidableEq

/-- The abstract review-site server as seen by `login_to_openwork`:
the result of fetching the login page, of posting to `login_check`, and of
fetching `my_top` (each `.error ()` is a raised `requests.RequestException`,
which includes `raise_for_status`).  The `my_top` body is its text. -/
structure LoginSite where
  loginPage : Except Unit LoginDoc
  loginCheck : Except Unit Unit
  myTop : Except Unit String

/-- The error taxonomy of the authenticator (spec section 7):
`NetworkError` is the `RuntimeError` raised on transport failure,
`TokenMissing` the `ValueError` of a missing/empty CSRF token,
`AuthVerificationFailed` the `RuntimeError` of a missing greeting. -/
inductive LoginError where
  | NetworkError : LoginError
  | TokenMissing : LoginError
  | AuthVerificationFailed : LoginError
deriving DecidableEq

/-- HTTP requests `login_to_openwork` can issue, the login-submit post
with its form payload. -/
inductive LoginReq where
  | getLoginPage : LoginReq
  | postLoginCheck : List (String × String) → LoginReq
  | getMyTop : LoginReq
deriving DecidableEq

/-- `l` occurs as a contiguous prefix of `hay`. -/
def hasPref : List Char → List Char → Bool
  | [], _ => true
  | _ :: _, [] => false
  | a :: l, b :: hay => a = b && hasPref l hay

/-- Python's `needle in hay` substring test on the character lists. -/
def hasSub (needle : List Char) : List Char → Bool
  | [] => needle.isEmpty
  | b :: hay => hasPref needle (b :: hay) || hasSub needle hay

/-- The form payload posted to `login_check` (source lines 60–66). -/
def loginPayload (username password csrf_token : String) :
    List (String × String) :=
  [("_username", username),
   ("_password", password),
   ("_remember_me", "1"),
   ("_csrf_token", csrf_token),
   ("_target_path", "https://www.openwork.jp/")]

/-- `login_to_openwork(session, username, password, logger)` (source lines
17–83).  Fetch the login page; fail with `TokenMissing` when the CSRF
input is absent or its value is falsy (`not csrf_input or not
csrf_input.get("value")`); otherwise post the form payload, fetch
`my_top`, and verify that `"ようこそ"` occurs in its body.  Also returns
the requests issued, in order. -/
def login_to_openwork (site : LoginSite) (username password : String) :
    Except LoginError Unit × List LoginReq :=
  match site.loginPage with
  | .error _ => (.error .NetworkError, [.getLoginPage])
  | .ok doc =>
    match doc.csrfInput with
    | none => (.error .TokenMissing, [.getLoginPage])
    | some none => (.error .TokenMissing, [.getLoginPage])
    | some (some csrf_token) =>
      if csrf_token = "" then (.error .TokenMissing, [.getLoginPage])
      else
        match site.loginCheck with
        | .error _ =>
          (.error .NetworkError,
           [.getLoginPage, .postLoginCheck (loginPayload username password csrf_token)])
        | .ok _ =>
          match site.myTop with
          | .error _ =>
            (.error .NetworkError,
             [.getLoginPage, .postLoginCheck (loginPayload username password csrf_token),
              .getMyTop])
          | .ok body =>
            if hasSub "ようこそ".data body.data then
              (.ok (),
               [.getLoginPage, .postLoginCheck (loginPayload username password csrf_token),
                .getMyTop])
            else
              (.error .AuthVerificationFailed,
               [.getLoginPage, .postLoginCheck (loginPayload username password csrf_token),
                .getMyTop])

/-! ### Summarizer (`summarize_reviews`, source lines 220–346) -/

/-- One role-tagged message segment of the chat completion request. -/
structure ChatMessage where
  role : String
  content : String
deriving DecidableEq

/-- The chat completion request `client.chat.completions.create(...)`
is called with: model name, the two message segments, and the fixed
sampling parameters `temperature=1.0`, `top_p=1.0`. -/
structure ChatRequest where
  model : String
  messages : List ChatMessage
  temperature : Rat
  top_p : Rat
deriving DecidableEq

/-- The error taxonomy of the summarizer (spec section 7): `EmptyInput` is
the `ValueError` for an empty review list, `SummaryGenerationFailed` the
`RuntimeError` wrapping a completion-endpoint exception. -/
inductive SummError where
  | EmptyInput : SummError
  | SummaryGenerationFailed : SummError
deriving DecidableEq

/-- Python's `sep.join(l)`. -/
def joinSep (sep : String) : List String → String
  | [] => ""
  | [s] => s
  | s :: rest => s ++ (sep ++ joinSep sep rest)

/-- The delimiter wrapper `f'"""\n{r}\n"""'` around one review text. -/
def wrapReview (r : String) : String :=
  "\"\"\"\n" ++ r ++ "\n\"\"\""

/-- `content = "\n\n".join(['"""\n{r}\n"""' for r in reviews])`, the whole
user ("data") segment. -/
def reviewsContent (reviews : List String) : String :=
  joinSep "\n\n" (reviews.map wrapReview)

/-- The `"ja"` entry of `instructions_by_language` (source lines 249–271). -/
def instructions_ja : String :=
  "あなたは非常に経験豊富なキャリアアドバイザーです。" ++
  "簡潔かつ洞察に富んだ要約を提供してください。" ++
  "就職活動中の求職者が自信をもって判断できるように、" ++
  "日本の職場レビューに基づいた有益な分析を行ってください。\n\n" ++
  "以下の要件に従ってください：\n" ++
  "1. 給与レベルは触れない。\n" ++
  "2. Markdown形式は使用しない。\n" ++
  "3. 必要に応じて会社の紹介文を補足できる。\n" ++
  "4. 全体的に矛盾のない情報整理を行う。\n" ++
  "5. 出力フォーマット例：\n" ++
  "名称：説明\n" ++
  "紹介：説明\n" ++
  "【企業文化】\n説明\n" ++
  "【WLB】\n説明\n" ++
  "【成長機会】\n説明\n" ++
  "【強みと弱点】\n- 強み: ...\n- 弱点: ...\n" ++
  "【注意点】\n- ... (最大3点)\n" ++
  "【適合する人材】\n...\n" ++
  "【推薦指数】⭐ n/5\n\n 理由\n" ++
  "6. 以下の企業評価は三重引用符で囲まれています。" ++
  "すべてを統合し、**日本語**でわかりやすく要約してください。\n\n"

/-- The `"en"` entry of `instructions_by_language` (source lines 272–294). -/
def instructions_en : String :=
  "You are a highly experienced career advisor. " ++
  "Provide concise and insightful summaries based on workplace reviews. " ++
  "Help job seekers make well-informed career decisions " ++
  "by offering meaningful analysis.\n" ++
  "Follow these requirements:\n" ++
  "1. Do not mention specific salary levels.\n" ++
  "2. Do not use Markdown formatting.\n" ++
  "3. You may add a brief introduction of the company if appropriate.\n" ++
  "4. Make sure the final summary is consistent and without conflicts.\n" ++
  "5. Suggested format:\n" ++
  "Name: ...\n" ++
  "Introduction: ...\n" ++
  "[Company Culture]\n...\n" ++
  "[WLB]\n...\n" ++
  "[Growth Opportunities]\n...\n" ++
  "[Strengths & Weaknesses]\n- Strengths: ...\n- Weaknesses: ...\n" ++
  "[Cautionary Points]\n- ... (up to 3)\n" ++
  "[Suitable for]\n...\n" ++
  "[Recommended Rating] ⭐ n/5\n\n Reason\n" ++
  "6. Summarize Japanese company reviews (each in triple quotes) " ++
  "in **English**.\n\n"

/-- The `"zh"` entry of `instructions_by_language` (source lines 295–315). -/
def instructions_zh : String :=
  "你是一位经验丰富的职业顾问。" ++
  "基于工作场所评价提供简洁且富有洞察力的总结。" ++
  "务必提供有价值的分析，帮助求职者在做出职业决策时更加自信且信息充分。\n" ++
  "遵循以下要求:\n" ++
  "1. 不提及具体薪资水平。\n" ++
  "2. 不使用markdown格式。\n" ++
  "3. 可以适当补充公司简介。\n" ++
  "4. 保证总结内容逻辑一致。\n" ++
  "5. 输出示例:\n" ++
  "名称: ...\n" ++
  "简介: ...\n" ++
  "【企业文化】\n...\n" ++
  "【WLB】\n...\n" ++
  "【成长机会】\n...\n" ++
  "【强项与弱点】\n- 强项: ...\n- 弱点: ...\n" ++
  "【注意点】\n- ... (最多3点)\n" ++
  "【适合人群】\n...\n" ++
  "【推荐指数】⭐ n/5\n\n 原因\n" ++
  "6. 使用**中文**对日语的企业评价进行总结（每条评价以三引号包裹）。\n\n"

/-- The dictionary `instructions_by_language`, as the partial lookup that
`dict.get` consults. -/
def instructions_by_language (lang : String) : Option String :=
  if lang = "ja" then some instructions_ja
  else if lang = "en" then some instructions_en
  else if lang = "zh" then some instructions_zh
  else none

/-- `developer_content`: the instruction segment selected by
`instructions_by_language.get(lang, instructions_by_language["ja"])`, with
`f"Name: {company_name}\nIntro: {company_intro}\n\n"` appended (source
lines 318–321). -/
def developerContent (lang company_name company_intro : String) : String :=
  (instructions_by_language lang).getD instructions_ja ++
    ("Name: " ++ company_name ++ "\nIntro: " ++ company_intro ++ "\n\n")

/-- The completion request built by `summarize_reviews` (source lines
325–339): the developer segment and the user segment. -/
def summaryRequest (model_name company_name company_intro : String)
    (reviews : List String) (lang : String) : ChatRequest :=
  { model := model_name,
    messages :=
      [{ role := "developer",
         content := developerContent lang company_name company_intro },
       { role := "user", content := reviewsContent reviews }],
    temperature := 1,
    top_p := 1 }

/-- `summarize_reviews(client, logger, model_name, company_name,
company_intro, reviews, lang)` (source lines 220–346).  The OpenAI client
is abstracted as a function from the request to either the generated text
or a raised exception.  Returns the result together with the list of
completion requests issued. -/
def summarize_reviews (client : ChatRequest → Except Unit String)
    (model_name company_name company_intro : String)
    (reviews : List String) (lang : String) :
    Except SummError String × List ChatRequest :=
  match reviews with
  | [] => (.error .EmptyInput, [])
  | _ :: _ =>
    match client (summaryRequest model_name company_name company_intro reviews lang) with
    | .error _ =>
      (.error .SummaryGenerationFailed,
       [summaryRequest model_name company_name company_intro reviews lang])
    | .ok s =>
      (.ok s, [summaryRequest model_name company_name company_intro reviews lang])

/-! ### Filename sanitizer (`safe_filename`, source lines 382–392) -/

/-- Python's `str.isalnum` on a single character.  Exact on ASCII
(`[A-Za-z0-9]`); beyond ASCII, Python follows the Unicode letter/number
properties, of which this embedding records the blocks relevant here:
Latin-1 letters, hiragana, katakana and the CJK unified ideographs. -/
def pyIsAlnum (c : Char) : Bool :=
  c.isAlphanum
    || (decide (0xC0 ≤ c.toNat) && decide (c.toNat ≤ 0xFF)
        && decide (c.toNat ≠ 0xD7) && decide (c.toNat ≠ 0xF7))
    || (decide (0x3041 ≤ c.toNat) && decide (c.toNat ≤ 0x3096))
    || (decide (0x30A1 ≤ c.toNat) && decide (c.toNat ≤ 0x30FA))
    || (decide (0x4E00 ≤ c.toNat) && decide (c.toNat ≤ 0x9FFF))

/-- `safe_filename(name)`: `"".join(c if c.isalnum() or c in ("-", "_")
else "_" for c in name)`. -/
def safe_filename (name : String) : String :=
  String.mk (name.data.map
    (fun c => if pyIsAlnum c || c = '-' || c = '_' then c else '_'))

/-- Modelled from the spec's words, for comparison with `safe_filename`:
"replacing every character outside [A-Za-z0-9_-] one-for-one with an
underscore" — `Char.isAlphanum` is exactly the ASCII class `[A-Za-z0-9]`. -/
def spec_safe_filename (name : String) : String :=
  String.mk (name.data.map
    (fun c => if c.isAlphanum || c = '-' || c = '_' then c else '_'))

/-- `needle` occurs contiguously inside `hay`. -/
def substrP (needle hay : List Char) : Prop :=
  ∃ l r, hay = l ++ needle ++ r

/-! ### Lemmas about the per-page article loop -/

/-- `recs` of a `consRecord`. -/
theorem recs_consRecord (r : Review) (o : ScanOutcome) :
    (consRecord r o).recs = r :: o.recs := by
  cases o <;> rfl

/-- A page all of whose items are in scope is scanned to the end, and
contributes exactly its records in order. -/
theorem processArticles_fine (cutoff : Int) :
    ∀ arts : List Article, (∀ b ∈ arts, fineArticle cutoff b = true) →
      processArticles cutoff arts = .finished (reviewsOfArticles arts) := by
  intro arts
  induction arts with
  | nil => intro _; rfl
  | cons a rest ih =>
    intro h
    have ha : fineArticle cutoff a = true := h a (List.mem_cons_self a rest)
    have hrest := ih (fun b hb => h b (List.mem_cons_of_mem a hb))
    cases hd : a.date with
    | malformed => simp [fineArticle, hd] at ha
    | absent =>
      simp [processArticles, hd, hrest, consRecord, reviewsOfArticles]
    | parsed d =>
      have hle : cutoff ≤ d := by simpa [fineArticle, hd] using ha
      simp [processArticles, hd, if_neg (not_lt.mpr hle), hrest, consRecord,
        reviewsOfArticles]

/-- If the item at index `j` has a date before the cutoff and every item
before it is in scope, the loop stops there and contributes exactly the
records of the first `j` items. -/
theorem processArticles_stopAt (cutoff : Int) :
    ∀ (arts : List Article) (j : Nat) (a : Article) (d : Int),
      arts.get? j = some a → a.date = .parsed d → d < cutoff →
      (∀ i b, i < j → arts.get? i = some b → fineArticle cutoff b = true) →
      processArticles cutoff arts = .stopped (reviewsOfArticles (arts.take j)) := by
  intro arts
  induction arts with
  | nil => intro j a d h; simp [List.get?] at h
  | cons x rest ih =>
    intro j a d hget hdate hlt hpre
    cases j with
    | zero =>
      have hx : x = a := by simpa [List.get?] using hget
      subst hx
      simp [processArticles, hdate, if_pos hlt, reviewsOfArticles]
    | succ n =>
      have hx : fineArticle cutoff x = true :=
        hpre 0 x (Nat.succ_pos n) (by simp [List.get?])
      have hrest := ih n a d (by simpa [List.get?] using hget) hdate hlt
        (fun i b hi hb => hpre (i + 1) b (Nat.succ_lt_succ hi)
          (by simpa [List.get?] using hb))
      cases hd : x.date with
      | malformed => simp [fineArticle, hd] at hx
      | absent =>
        simp [processArticles, hd, hrest, consRecord, reviewsOfArticles]
      | parsed e =>
        have hle : cutoff ≤ e := by simpa [fineArticle, hd] using hx
        simp [processArticles, hd, if_neg (not_lt.mpr hle), hrest, consRecord,
          reviewsOfArticles]

/-- If the item at index `j` has a malformed date and every item before it
is in scope, the loop raises there and contributes exactly the records of
the first `j` items. -/
theorem processArticles_raiseAt (cutoff : Int) :
    ∀ (arts : List Article) (j : Nat) (a : Article),
      arts.get? j = some a → a.date = .malformed →
      (∀ i b, i < j → arts.get? i = some b → fineArticle cutoff b = true) →
      processArticles cutoff arts = .raised (reviewsOfArticles (arts.take j)) := by
  intro arts
  induction arts with
  | nil => intro j a h; simp [List.get?] at h
  | cons x rest ih =>
    intro j a hget hdate hpre
    cases j with
    | zero =>
      have hx : x = a := by simpa [List.get?] using hget
      subst hx
      simp [processArticles, hdate, reviewsOfArticles]
    | succ n =>
      have hx : fineArticle cutoff x = true :=
        hpre 0 x (Nat.succ_pos n) (by simp [List.get?])
      have hrest := ih n a (by simpa [List.get?] using hget) hdate
        (fun i b hi hb => hpre (i + 1) b (Nat.succ_lt_succ hi)
          (by simpa [List.get?] using hb))
      cases hd : x.date with
      | malformed => simp [fineArticle, hd] at hx
      | absent =>
        simp [processArticles, hd, hrest, consRecord, reviewsOfArticles]
      | parsed e =>
        have hle : cutoff ≤ e := by simpa [fineArticle, hd] using hx
        simp [processArticles, hd, if_neg (not_lt.mpr hle), hrest, consRecord,
          reviewsOfArticles]

/-- No record the loop contributes carries a date before the cutoff. -/
theorem processArticles_dates (cutoff : Int) :
    ∀ (arts : List Article) (r : Review),
      r ∈ (processArticles cutoff arts).recs →
      ∀ d, r.date = some d → cutoff ≤ d := by
  intro arts
  induction arts with
  | nil => intro r hr; simp [processArticles, ScanOutcome.recs] at hr
  | cons a rest ih =>
    intro r hr d hd
    cases hda : a.date with
    | malformed => simp [processArticles, hda, ScanOutcome.recs] at hr
    | absent =>
      simp only [processArticles, hda, recs_consRecord] at hr
      rcases List.mem_cons.1 hr with h | h
      · subst h; simp [reviewOfArticle, hda] at hd
      · exact ih r h d hd
    | parsed e =>
      simp only [processArticles, hda] at hr
      by_cases he : e < cutoff
      · rw [if_pos he] at hr; simp [ScanOutcome.recs] at hr
      · rw [if_neg he, recs_consRecord] at hr
        rcases List.mem_cons.1 hr with h | h
        · subst h
          simp only [reviewOfArticle, hda] at hd
          have : e = d := by simpa using hd
          subst this
          exact not_lt.mp he
        · exact ih r h d hd

/-- Conversely, a stopped scan is always caused by a first out-of-scope
dated item: the scan stopped at some index `j` whose item has a parsed
date before the cutoff, every earlier item is in scope, and exactly the
records of the first `j` items were contributed. -/
theorem processArticles_stopped_inv (cutoff : Int) :
    ∀ (arts : List Article) (rs : List Review),
      processArticles cutoff arts = .stopped rs →
      ∃ j a d, arts.get? j = some a ∧ a.date = .parsed d ∧ d < cutoff ∧
        (∀ i b, i < j → arts.get? i = some b → fineArticle cutoff b = true) ∧
        rs = reviewsOfArticles (arts.take j) := by
  intro arts
  induction arts with
  | nil => intro rs h; simp [processArticles] at h
  | cons x rest ih =>
    intro rs h
    cases hd : x.date with
    | malformed => simp only [processArticles, hd] at h; cases h
    | absent =>
      simp only [processArticles, hd] at h
      cases hrec : processArticles cutoff rest with
      | finished rs' => rw [hrec] at h; cases h
      | raised rs' => rw [hrec] at h; cases h
      | stopped rs' =>
        rw [hrec, consRecord] at h
        rcases ih rs' hrec with ⟨j, a, d, hget, hdate, hlt, hpre, hrs⟩
        refine ⟨j + 1, a, d, by simpa [List.get?] using hget, hdate, hlt, ?_, ?_⟩
        · intro i b hi hb
          cases i with
          | zero =>
            have : b = x := by simpa [List.get?] using hb.symm
            subst this; simp [fineArticle, hd]
          | succ m =>
            exact hpre m b (Nat.lt_of_succ_lt_succ hi)
              (by simpa [List.get?] using hb)
        · cases h
          simp [List.take, reviewsOfArticles, hrs]
    | parsed e =>
      simp only [processArticles, hd] at h
      by_cases he : e < cutoff
      · rw [if_pos he] at h
        cases h
        exact ⟨0, x, e, by simp [List.get?], hd, he,
          by intro i b hi; omega, by simp [reviewsOfArticles]⟩
      · rw [if_neg he] at h
        cases hrec : processArticles cutoff rest with
        | finished rs' => rw [hrec, consRecord] at h; cases h
        | raised rs' => rw [hrec, consRecord] at h; cases h
        | stopped rs' =>
          rw [hrec, consRecord] at h
          rcases ih rs' hrec with ⟨j, a, d, hget, hdate, hlt, hpre, hrs⟩
          refine ⟨j + 1, a, d, by simpa [List.get?] using hget, hdate, hlt, ?_, ?_⟩
          · intro i b hi hb
            cases i with
            | zero =>
              have : b = x := by simpa [List.get?] using hb.symm
              subst this; simp [fineArticle, hd, not_lt.mp he]
            | succ m =>
              exact hpre m b (Nat.lt_of_succ_lt_succ hi)
                (by simpa [List.get?] using hb)
          · cases h
            simp [List.take, reviewsOfArticles, hrs]

/-- Whatever ends the scan, the records of any in-scope initial run of
items form a prefix of what the loop contributes. -/
theorem processArticles_take (cutoff : Int) :
    ∀ (arts : List Article) (n : Nat),
      (∀ i b, i < n → arts.get? i = some b → fineArticle cutoff b = true) →
      n ≤ arts.length →
      ∃ t, (processArticles cutoff arts).recs
        = reviewsOfArticles (arts.take n) ++ t := by
  intro arts
  induction arts with
  | nil =>
    intro n _ hn
    have : n = 0 := by simpa using hn
    subst this
    exact ⟨[], by simp [processArticles, ScanOutcome.recs, reviewsOfArticles]⟩
  | cons x rest ih =>
    intro n hpre hn
    cases n with
    | zero => exact ⟨(processArticles cutoff (x :: rest)).recs, by simp [reviewsOfArticles]⟩
    | succ m =>
      have hx : fineArticle cutoff x = true :=
        hpre 0 x (Nat.succ_pos m) (by simp [List.get?])
      have hm : m ≤ rest.length := by simpa using hn
      rcases ih m (fun i b hi hb => hpre (i + 1) b (Nat.succ_lt_succ hi)
        (by simpa [List.get?] using hb)) hm with ⟨t, ht⟩
      cases hd : x.date with
      | malformed => simp [fineArticle, hd] at hx
      | absent =>
        refine ⟨t, ?_⟩
        simp only [processArticles, hd, recs_consRecord]
        simp [reviewsOfArticles, ht]
      | parsed e =>
        have hle : cutoff ≤ e := by simpa [fineArticle, hd] using hx
        refine ⟨t, ?_⟩
        simp only [processArticles, hd]
        rw [if_neg (not_lt.mpr hle), recs_consRecord]
        simp [reviewsOfArticles, ht]

/-! ### Lemmas about the pagination loop -/

/-- Running the loop across `n` consecutive pages that are present,
non-empty and entirely in scope harvests exactly their records page by
page, requests exactly those pages, and continues at page `page + n`. -/
theorem scrapeAux_run (pages : Nat → PageResponse) (cutoff : Int)
    (artsOf : Nat → List Article) :
    ∀ (n page fuel : Nat),
      (∀ q, page ≤ q → q < page + n →
          pages q = .page (artsOf q) ∧ artsOf q ≠ [] ∧
          ∀ b ∈ artsOf q, fineArticle cutoff b = true) →
      n ≤ fuel →
      scrapeAux pages cutoff page fuel
        = (joinLists ((pagesFrom page n).map fun q => reviewsOfArticles (artsOf q))
              ++ (scrapeAux pages cutoff (page + n) (fuel - n)).1,
           pagesFrom page n ++ (scrapeAux pages cutoff (page + n) (fuel - n)).2) := by
  intro n
  induction n with
  | zero =>
    intro page fuel _ _
    simp only [pagesFrom, List.map_nil, joinLists, List.nil_append,
      Nat.add_zero, Nat.sub_zero]
  | succ m ih =>
    intro page fuel hfull hle
    obtain ⟨f, rfl⟩ : ∃ f, fuel = f + 1 := ⟨fuel - 1, by omega⟩
    obtain ⟨hp, hne, hfine⟩ := hfull page (le_refl page) (by omega)
    have hproc := processArticles_fine cutoff (artsOf page) hfine
    have ihm := ih (page + 1) f
      (fun q hq1 hq2 => hfull q (by omega) (by omega)) (by omega)
    cases e : artsOf page with
    | nil => exact absurd e hne
    | cons x rest =>
      rw [e] at hp hproc
      simp only [scrapeAux, hp, hproc]
      rw [ihm]
      have harith1 : page + 1 + m = page + (m + 1) := by omega
      have harith2 : f - m = f + 1 - (m + 1) := by omega
      rw [harith1, harith2]
      simp only [pagesFrom, List.map_cons, joinLists, List.append_assoc,
        List.cons_append, e]

/-- No record the loop ever returns carries a date before the cutoff. -/
theorem scrapeAux_dates (pages : Nat → PageResponse) (cutoff : Int) :
    ∀ (fuel page : Nat) (r : Review),
      r ∈ (scrapeAux pages cutoff page fuel).1 →
      ∀ d, r.date = some d → cutoff ≤ d := by
  intro fuel
  induction fuel with
  | zero => intro page r hr; simp [scrapeAux] at hr
  | succ f ih =>
    intro page r hr d hd
    cases hp : pages page with
    | fetchError => simp [scrapeAux, hp] at hr
    | badStatus => simp [scrapeAux, hp] at hr
    | noAnchor => simp [scrapeAux, hp] at hr
    | page arts =>
      cases arts with
      | nil => simp [scrapeAux, hp] at hr
      | cons x rest =>
        cases hproc : processArticles cutoff (x :: rest) with
        | finished rs =>
          simp only [scrapeAux, hp, hproc] at hr
          rcases List.mem_append.1 hr with h | h
          · have hm : r ∈ (processArticles cutoff (x :: rest)).recs := by
              rw [hproc]; simpa [ScanOutcome.recs] using h
            exact processArticles_dates cutoff (x :: rest) r hm d hd
          · exact ih (page + 1) r h d hd
        | stopped rs =>
          simp only [scrapeAux, hp, hproc] at hr
          have hm : r ∈ (processArticles cutoff (x :: rest)).recs := by
            rw [hproc]; simpa [ScanOutcome.recs] using hr
          exact processArticles_dates cutoff (x :: rest) r hm d hd
        | raised rs =>
          simp only [scrapeAux, hp, hproc] at hr
          have hm : r ∈ (processArticles cutoff (x :: rest)).recs := by
            rw [hproc]; simpa [ScanOutcome.recs] using hr
          exact processArticles_dates cutoff (x :: rest) r hm d hd

/-- When every page the server can deliver is a listing whose items are
all in scope (or has no review container), the loop harvests a run of `n`
consecutive non-empty listing pages completely and in order, and it ends
only by exhausting the page budget or by meeting an absent container or an
item-less listing. -/
theorem scrapeAux_allFresh (pages : Nat → PageResponse) (cutoff : Int)
    (artsOf : Nat → List Article) :
    ∀ (fuel page : Nat),
      (∀ q, page ≤ q →
          pages q = .noAnchor ∨
          (pages q = .page (artsOf q) ∧ ∀ b ∈ artsOf q, fineArticle cutoff b = true)) →
      ∃ n, n ≤ fuel ∧
        (scrapeAux pages cutoff page fuel).1
          = joinLists ((pagesFrom page n).map fun q => reviewsOfArticles (artsOf q)) ∧
        (∀ q, page ≤ q → q < page + n → pages q = .page (artsOf q) ∧ artsOf q ≠ []) ∧
        (n = fuel ∨ pages (page + n) = .noAnchor ∨
          (pages (page + n) = .page (artsOf (page + n)) ∧ artsOf (page + n) = [])) := by
  intro fuel
  induction fuel with
  | zero =>
    intro page _
    exact ⟨0, le_refl 0, by simp [scrapeAux, pagesFrom, joinLists],
      by intro q h1 h2; omega, Or.inl rfl⟩
  | succ f ih =>
    intro page hyp
    rcases hyp page (le_refl page) with hp | ⟨hp, hfine⟩
    · exact ⟨0, Nat.zero_le _, by simp [scrapeAux, hp, pagesFrom, joinLists],
        by intro q h1 h2; omega, Or.inr (Or.inl (by simpa using hp))⟩
    · cases e : artsOf page with
      | nil =>
        refine ⟨0, Nat.zero_le _, ?_, by intro q h1 h2; omega,
          Or.inr (Or.inr ⟨by simpa using hp, by simpa using e⟩)⟩
        have hp' : pages page = .page [] := by rw [hp, e]
        simp [scrapeAux, hp', pagesFrom, joinLists]
      | cons x rest =>
        have hproc := processArticles_fine cutoff (artsOf page) hfine
        have hp' := hp
        rw [e] at hp' hproc
        rcases ih (page + 1) (fun q hq => hyp q (by omega)) with ⟨n, hn, h1, h2, h3⟩
        refine ⟨n + 1, by omega, ?_, ?_, ?_⟩
        · simp only [scrapeAux, hp', hproc]
          rw [h1]
          simp [pagesFrom, joinLists, e]
        · intro q hq1 hq2
          by_cases hq : q = page
          · subst hq; exact ⟨hp, by rw [e]; simp⟩
          · exact h2 q (by omega) (by omega)
        · rcases h3 with h | h | h
          · exact Or.inl (by omega)
          · refine Or.inr (Or.inl ?_)
            have harith : page + 1 + n = page + (n + 1) := by omega
            rwa [harith] at h
          · refine Or.inr (Or.inr ?_)
            have harith : page + 1 + n = page + (n + 1) := by omega
            rwa [harith] at h

/-- Appending the next index extends a run of page indices. -/
theorem pagesFrom_snoc : ∀ (n s : Nat), pagesFrom s n ++ [s + n] = pagesFrom s (n + 1) := by
  intro n
  induction n with
  | zero => intro s; simp [pagesFrom]
  | succ m ih =>
    intro s
    simp only [pagesFrom, List.cons_append]
    rw [show s + (m + 1) = (s + 1) + m from by omega, ih (s + 1)]
    rfl

/-- C1: the review list returned by the paginator never contains a record
whose date is older than the cutoff; the per-page scan stops exactly at
the first record dated before the cutoff, keeping no later record of that
page; and a page whose scan stopped ends the whole loop at once, so no
record of that page past the stop and no subsequent page is taken. -/
theorem scrape_reviews_cutoff_invariant
    (pages : Nat → PageResponse) (cutoff : Int) (maxPages : Nat) :
    (∀ r ∈ scrape_reviews pages cutoff maxPages, ∀ d, r.date = some d → cutoff ≤ d)
    ∧ (∀ (arts : List Article) (rs : List Review),
        processArticles cutoff arts = .stopped rs →
        ∃ j a d, arts.get? j = some a ∧ a.date = .parsed d ∧ d < cutoff ∧
          (∀ i b, i < j → arts.get? i = some b → fineArticle cutoff b = true) ∧
          rs = reviewsOfArticles (arts.take j))
    ∧ (∀ (page fuel : Nat) (arts : List Article) (rs : List Review),
        pages page = .page arts → processArticles cutoff arts = .stopped rs →
        scrapeAux pages cutoff page (fuel + 1) = (rs, [page])) := by
  refine ⟨?_, ?_, ?_⟩
  · intro r hr d hd
    exact scrapeAux_dates pages cutoff maxPages 1 r hr d hd
  · intro arts rs h
    exact processArticles_stopped_inv cutoff arts rs h
  · intro page fuel arts rs hp hproc
    cases arts with
    | nil => simp [processArticles] at hproc
    | cons x rest => simp only [scrapeAux, hp, hproc]

/-- C2: when page `p` is reached with all earlier pages delivered,
non-empty and entirely in scope, and its item at index `j` (the
`(j+1)`-st item, 1-indexed) is dated before the cutoff while all earlier
items of that page are in scope, the paginator returns exactly the
records of pages `1..p-1` followed by the first `j` records of page `p`,
and requests exactly pages `1..p` — none after `p`. -/
theorem scrape_reviews_stops_at_first_old
    (pages : Nat → PageResponse) (cutoff : Int) (maxPages : Nat)
    (artsOf : Nat → List Article) (p j : Nat) (arts : List Article)
    (a : Article) (d : Int)
    (hp1 : 1 ≤ p) (hpmax : p ≤ maxPages)
    (hprev : ∀ q, 1 ≤ q → q < p →
      pages q = .page (artsOf q) ∧ artsOf q ≠ [] ∧
      ∀ b ∈ artsOf q, fineArticle cutoff b = true)
    (hpage : pages p = .page arts)
    (hget : arts.get? j = some a) (hdate : a.date = .parsed d)
    (hlt : d < cutoff)
    (hpre : ∀ i b, i < j → arts.get? i = some b → fineArticle cutoff b = true) :
    scrape_reviews pages cutoff maxPages
      = joinLists ((pagesFrom 1 (p - 1)).map fun q => reviewsOfArticles (artsOf q))
        ++ reviewsOfArticles (arts.take j)
    ∧ scrapeRequests pages cutoff maxPages = pagesFrom 1 p := by
  obtain ⟨x, rest, rfl⟩ : ∃ x rest, arts = x :: rest := by
    cases arts with
    | nil => simp [List.get?] at hget
    | cons x rest => exact ⟨x, rest, rfl⟩
  obtain ⟨t, rfl⟩ : ∃ t, p = t + 1 := ⟨p - 1, by omega⟩
  have hrun := scrapeAux_run pages cutoff artsOf t 1 maxPages
    (fun q hq1 hq2 => hprev q hq1 (by omega)) (by omega)
  have hproc := processArticles_stopAt cutoff (x :: rest) j a d hget hdate hlt hpre
  have hp' : pages (1 + t) = .page (x :: rest) := by rw [Nat.add_comm]; exact hpage
  obtain ⟨f, hf⟩ : ∃ f, maxPages - t = f + 1 := ⟨maxPages - t - 1, by omega⟩
  have hstep : scrapeAux pages cutoff (1 + t) (maxPages - t)
      = (reviewsOfArticles (List.take j (x :: rest)), [1 + t]) := by
    rw [hf]
    simp only [scrapeAux, hp', hproc]
  constructor
  · show (scrapeAux pages cutoff 1 maxPages).1 = _
    rw [hrun, hstep]
    simp [Nat.add_sub_cancel]
  · show (scrapeAux pages cutoff 1 maxPages).2 = _
    rw [hrun, hstep]
    show pagesFrom 1 t ++ [1 + t] = pagesFrom 1 (t + 1)
    exact pagesFrom_snoc t 1

/-- C3: when every page the server delivers is a listing whose items are
all dated at or after the cutoff (or lacks the review container), the
paginator harvests some run of pages `1..P` completely, in server order,
and stops only because `P` reached `max_pages` or because page `P+1` has
an absent container or zero review items. -/
theorem scrape_reviews_collects_all_fresh
    (pages : Nat → PageResponse) (cutoff : Int) (maxPages : Nat)
    (artsOf : Nat → List Article)
    (hyp : ∀ q, 1 ≤ q →
      pages q = .noAnchor ∨
      (pages q = .page (artsOf q) ∧ ∀ b ∈ artsOf q, fineArticle cutoff b = true)) :
    ∃ P, P ≤ maxPages ∧
      scrape_reviews pages cutoff maxPages
        = joinLists ((pagesFrom 1 P).map fun q => reviewsOfArticles (artsOf q)) ∧
      (∀ q, 1 ≤ q → q ≤ P → pages q = .page (artsOf q) ∧ artsOf q ≠ []) ∧
      (P = maxPages ∨ pages (P + 1) = .noAnchor ∨
        (pages (P + 1) = .page (artsOf (P + 1)) ∧ artsOf (P + 1) = [])) := by
  rcases scrapeAux_allFresh pages cutoff artsOf maxPages 1 (fun q hq => hyp q hq)
    with ⟨n, hn, h1, h2, h3⟩
  refine ⟨n, hn, h1, ?_, ?_⟩
  · intro q hq1 hq2
    exact h2 q hq1 (by omega)
  · rcases h3 with h | h | h
    · exact Or.inl h
    · exact Or.inr (Or.inl (by rwa [Nat.add_comm 1 n] at h))
    · exact Or.inr (Or.inr (by rwa [Nat.add_comm 1 n] at h))

/-- C4: an exception while fetching page `p` (first conjunct) or while
processing its items (second conjunct: an unparseable date at index `j`)
ends the scrape with a normal return of everything accumulated before the
exception — nothing is discarded, nothing propagates, and no page after
`p` is requested. -/
theorem scrape_reviews_exception_recovery
    (pages : Nat → PageResponse) (cutoff : Int) (maxPages : Nat)
    (artsOf : Nat → List Article) (p : Nat)
    (hp1 : 1 ≤ p) (hpmax : p ≤ maxPages)
    (hprev : ∀ q, 1 ≤ q → q < p →
      pages q = .page (artsOf q) ∧ artsOf q ≠ [] ∧
      ∀ b ∈ artsOf q, fineArticle cutoff b = true) :
    (pages p = .fetchError →
      scrape_reviews pages cutoff maxPages
        = joinLists ((pagesFrom 1 (p - 1)).map fun q => reviewsOfArticles (artsOf q))
      ∧ scrapeRequests pages cutoff maxPages = pagesFrom 1 p)
    ∧ (∀ (arts : List Article) (j : Nat) (a : Article),
        pages p = .page arts → arts.get? j = some a → a.date = .malformed →
        (∀ i b, i < j → arts.get? i = some b → fineArticle cutoff b = true) →
        scrape_reviews pages cutoff maxPages
          = joinLists ((pagesFrom 1 (p - 1)).map fun q => reviewsOfArticles (artsOf q))
            ++ reviewsOfArticles (arts.take j)
        ∧ scrapeRequests pages cutoff maxPages = pagesFrom 1 p) := by
  obtain ⟨t, rfl⟩ : ∃ t, p = t + 1 := ⟨p - 1, by omega⟩
  have hrun := scrapeAux_run pages cutoff artsOf t 1 maxPages
    (fun q hq1 hq2 => hprev q hq1 (by omega)) (by omega)
  obtain ⟨f, hf⟩ : ∃ f, maxPages - t = f + 1 := ⟨maxPages - t - 1, by omega⟩
  constructor
  · intro hp
    have hp' : pages (1 + t) = .fetchError := by rw [Nat.add_comm]; exact hp
    have hstep : scrapeAux pages cutoff (1 + t) (maxPages - t) = ([], [1 + t]) := by
      rw [hf]
      simp only [scrapeAux, hp']
    constructor
    · show (scrapeAux pages cutoff 1 maxPages).1 = _
      rw [hrun, hstep]
      simp [Nat.add_sub_cancel]
    · show (scrapeAux pages cutoff 1 maxPages).2 = _
      rw [hrun, hstep]
      show pagesFrom 1 t ++ [1 + t] = pagesFrom 1 (t + 1)
      exact pagesFrom_snoc t 1
  · intro arts j a hpage hget hdate hpre
    obtain ⟨x, rest, rfl⟩ : ∃ x rest, arts = x :: rest := by
      cases arts with
      | nil => simp [List.get?] at hget
      | cons x rest => exact ⟨x, rest, rfl⟩
    have hproc := processArticles_raiseAt cutoff (x :: rest) j a hget hdate hpre
    have hp' : pages (1 + t) = .page (x :: rest) := by rw [Nat.add_comm]; exact hpage
    have hstep : scrapeAux pages cutoff (1 + t) (maxPages - t)
        = (reviewsOfArticles (List.take j (x :: rest)), [1 + t]) := by
      rw [hf]
      simp only [scrapeAux, hp', hproc]
    constructor
    · show (scrapeAux pages cutoff 1 maxPages).1 = _
      rw [hrun, hstep]
      simp [Nat.add_sub_cancel]
    · show (scrapeAux pages cutoff 1 maxPages).2 = _
      rw [hrun, hstep]
      show pagesFrom 1 t ++ [1 + t] = pagesFrom 1 (t + 1)
      exact pagesFrom_snoc t 1

/-- C9: an item with no usable date never triggers the cutoff stop: when
the scan of page `p` reaches it (index `j`, all earlier items in scope),
its record is included with date `none` — however "old" the review may
actually be, since no date is available to compare — and the harvest up
to and including it is an initial segment of the returned list. -/
theorem scrape_reviews_undated_included
    (pages : Nat → PageResponse) (cutoff : Int) (maxPages : Nat)
    (artsOf : Nat → List Article) (p j : Nat) (arts : List Article)
    (a : Article)
    (hp1 : 1 ≤ p) (hpmax : p ≤ maxPages)
    (hprev : ∀ q, 1 ≤ q → q < p →
      pages q = .page (artsOf q) ∧ artsOf q ≠ [] ∧
      ∀ b ∈ artsOf q, fineArticle cutoff b = true)
    (hpage : pages p = .page arts)
    (hget : arts.get? j = some a) (hdate : a.date = .absent)
    (hpre : ∀ i b, i < j → arts.get? i = some b → fineArticle cutoff b = true) :
    (∃ t, scrape_reviews pages cutoff maxPages
      = joinLists ((pagesFrom 1 (p - 1)).map fun q => reviewsOfArticles (artsOf q))
        ++ reviewsOfArticles (arts.take j)
        ++ { date := none, content := a.content } :: t)
    ∧ ({ date := none, content := a.content } : Review)
        ∈ scrape_reviews pages cutoff maxPages := by
  obtain ⟨x, rest, rfl⟩ : ∃ x rest, arts = x :: rest := by
    cases arts with
    | nil => simp [List.get?] at hget
    | cons x rest => exact ⟨x, rest, rfl⟩
  obtain ⟨t, rfl⟩ : ∃ t, p = t + 1 := ⟨p - 1, by omega⟩
  have hrun := scrapeAux_run pages cutoff artsOf t 1 maxPages
    (fun q hq1 hq2 => hprev q hq1 (by omega)) (by omega)
  have hp' : pages (1 + t) = .page (x :: rest) := by rw [Nat.add_comm]; exact hpage
  obtain ⟨f, hf⟩ : ∃ f, maxPages - t = f + 1 := ⟨maxPages - t - 1, by omega⟩
  have hlen : j < (x :: rest).length := by
    by_contra hcon
    rw [List.get?_eq_none.2 (by omega)] at hget
    cases hget
  have hpre' : ∀ i b, i < j + 1 → (x :: rest).get? i = some b →
      fineArticle cutoff b = true := by
    intro i b hi hb
    by_cases hij : i = j
    · subst hij
      rw [hget] at hb
      cases hb
      simp [fineArticle, hdate]
    · exact hpre i b (by omega) hb
  rcases processArticles_take cutoff (x :: rest) (j + 1) hpre' (by omega) with ⟨t0, ht0⟩
  have htake : reviewsOfArticles (List.take (j + 1) (x :: rest))
      = reviewsOfArticles (List.take j (x :: rest))
        ++ [{ date := none, content := a.content }] := by
    rw [List.take_succ]
    rw [← List.get?_eq_getElem?, hget]
    simp [reviewsOfArticles, reviewOfArticle, hdate, Option.toList]
  have hmain : ∃ t1, (scrapeAux pages cutoff (1 + t) (maxPages - t)).1
      = reviewsOfArticles (List.take j (x :: rest))
        ++ { date := none, content := a.content } :: t1 := by
    rw [hf]
    cases hproc : processArticles cutoff (x :: rest) with
    | finished rs =>
      refine ⟨t0 ++ (scrapeAux pages cutoff (1 + t + 1) f).1, ?_⟩
      simp only [scrapeAux, hp', hproc]
      have : rs = reviewsOfArticles (List.take j (x :: rest))
          ++ { date := none, content := a.content } :: t0 := by
        have h2 := ht0
        rw [hproc, htake] at h2
        simpa [ScanOutcome.recs, List.append_assoc] using h2
      rw [this]
      simp [List.append_assoc]
    | stopped rs =>
      refine ⟨t0, ?_⟩
      simp only [scrapeAux, hp', hproc]
      have h2 := ht0
      rw [hproc, htake] at h2
      simpa [ScanOutcome.recs, List.append_assoc] using h2
    | raised rs =>
      refine ⟨t0, ?_⟩
      simp only [scrapeAux, hp', hproc]
      have h2 := ht0
      rw [hproc, htake] at h2
      simpa [ScanOutcome.recs, List.append_assoc] using h2
  rcases hmain with ⟨t1, ht1⟩
  have hfull : scrape_reviews pages cutoff maxPages
      = joinLists ((pagesFrom 1 (t + 1 - 1)).map fun q => reviewsOfArticles (artsOf q))
        ++ reviewsOfArticles (List.take j (x :: rest))
        ++ { date := none, content := a.content } :: t1 := by
    show (scrapeAux pages cutoff 1 maxPages).1 = _
    rw [hrun]
    simp [ht1, Nat.add_sub_cancel, List.append_assoc]
  refine ⟨⟨t1, hfull⟩, ?_⟩
  rw [hfull]
  simp

/-! ### String containment helpers -/

/-- `String.append` concatenates the character data. -/
theorem strData_append (a b : String) : (a ++ b).data = a.data ++ b.data := by
  cases a
  cases b
  rfl

/-- A substring stays a substring after prepending. -/
theorem substrP_appendL (n h x : List Char) : substrP n h → substrP n (x ++ h) := by
  rintro ⟨l, r, rfl⟩
  exact ⟨x ++ l, r, by simp [List.append_assoc]⟩

/-- A substring stays a substring after appending. -/
theorem substrP_appendR (n h x : List Char) : substrP n h → substrP n (h ++ x) := by
  rintro ⟨l, r, rfl⟩
  exact ⟨l, r ++ x, by simp [List.append_assoc]⟩

/-- Every element of a joined list occurs contiguously in the join. -/
theorem substrP_joinSep :
    ∀ (l : List String) (s sep : String), s ∈ l →
      substrP s.data (joinSep sep l).data := by
  intro l
  induction l with
  | nil => intro s sep h; cases h
  | cons x rest ih =>
    intro s sep hs
    cases rest with
    | nil =>
      have : s = x := by simpa using hs
      subst this
      exact ⟨[], [], by simp [joinSep]⟩
    | cons y t =>
      rcases List.mem_cons.1 hs with h | h
      · subst h
        refine ⟨[], (sep ++ joinSep sep (y :: t)).data, ?_⟩
        simp [joinSep, strData_append]
      · have hsub := ih s sep h
        have h1 : substrP s.data (sep ++ joinSep sep (y :: t)).data := by
          rw [strData_append]
          exact substrP_appendL _ _ _ hsub
        have h2 : substrP s.data (x ++ (sep ++ joinSep sep (y :: t))).data := by
          rw [strData_append]
          exact substrP_appendL _ _ _ h1
        exact h2

/-! ### Claim theorems about the summarizer and the authenticator -/

/-- A completion client that always answers. -/
def okClient : ChatRequest → Except Unit String := fun _ => .ok "summary"

/-- C6 (amended): for a non-empty review list the single completion
request has exactly two segments; the user ("data") segment is exactly the
given review texts, each wrapped in the triple-quote delimiter and joined
by blank lines; the company name and introduction are appended to the
developer (instruction) segment — not placed in the user segment. -/
theorem summarize_reviews_segments
    (client : ChatRequest → Except Unit String)
    (model_name company_name company_intro lang : String)
    (reviews : List String) (hne : reviews ≠ []) :
    (summarize_reviews client model_name company_name company_intro reviews lang).2
      = [summaryRequest model_name company_name company_intro reviews lang]
    ∧ (summaryRequest model_name company_name company_intro reviews lang).messages
      = [{ role := "developer",
           content := developerContent lang company_name company_intro },
         { role := "user", content := reviewsContent reviews }]
    ∧ (∀ r ∈ reviews, substrP (wrapReview r).data (reviewsContent reviews).data)
    ∧ substrP company_name.data
        (developerContent lang company_name company_intro).data
    ∧ substrP company_intro.data
        (developerContent lang company_name company_intro).data := by
  obtain ⟨x, rest, rfl⟩ : ∃ x rest, reviews = x :: rest := by
    cases reviews with
    | nil => exact absurd rfl hne
    | cons x rest => exact ⟨x, rest, rfl⟩
  refine ⟨?_, rfl, ?_, ?_, ?_⟩
  · cases hc : client (summaryRequest model_name company_name company_intro (x :: rest) lang) with
    | error e => simp [summarize_reviews, hc]
    | ok s => simp [summarize_reviews, hc]
  · intro r hr
    exact substrP_joinSep ((x :: rest).map wrapReview) (wrapReview r) "\n\n"
      (List.mem_map_of_mem wrapReview hr)
  · refine ⟨((instructions_by_language lang).getD instructions_ja).data ++ "Name: ".data,
      ("\nIntro: " ++ company_intro ++ "\n\n").data, ?_⟩
    simp [developerContent, strData_append, List.append_assoc]
  · refine ⟨((instructions_by_language lang).getD instructions_ja).data
        ++ "Name: ".data ++ company_name.data ++ "\nIntro: ".data,
      "\n\n".data, ?_⟩
    simp [developerContent, strData_append, List.append_assoc]

/-- C6 (counterexample to the claim as stated): for reviews `["good"]` of
company "Acme Corp", the user ("data") segment of the issued request is
exactly the wrapped review text, and the company name does not occur in it
— the name/introduction live in the developer segment instead. -/
theorem summarize_user_segment_lacks_company_name :
    ((summarize_reviews okClient "m" "Acme Corp" "x" ["good"] "ja").2.map
        fun q => q.messages.map fun msg => msg.content).flatten
      = [developerContent "ja" "Acme Corp" "x", reviewsContent ["good"]]
    ∧ reviewsContent ["good"] = "\"\"\"\ngood\n\"\"\""
    ∧ ¬ substrP "Acme Corp".data (reviewsContent ["good"]).data := by
  refine ⟨rfl, rfl, ?_⟩
  rintro ⟨l, r, h⟩
  have hA : 'A' ∈ (reviewsContent ["good"]).data := by
    have hmem : 'A' ∈ "Acme Corp".data := by decide
    rw [h]
    simp only [List.mem_append]
    tauto
  exact absurd hA (by decide)

/-- C8: with an empty review list `summarize_reviews` fails with
`EmptyInput` and issues no completion request; with any non-empty list
that error is never produced. -/
theorem summarize_reviews_empty_input
    (client : ChatRequest → Except Unit String)
    (model_name company_name company_intro lang : String) :
    ((summarize_reviews client model_name company_name company_intro [] lang).1
        = .error .EmptyInput
      ∧ (summarize_reviews client model_name company_name company_intro [] lang).2 = [])
    ∧ ∀ reviews : List String, reviews ≠ [] →
        (summarize_reviews client model_name company_name company_intro reviews lang).1
          ≠ .error .EmptyInput := by
  refine ⟨⟨rfl, rfl⟩, ?_⟩
  intro reviews hne
  obtain ⟨x, rest, rfl⟩ : ∃ x rest, reviews = x :: rest := by
    cases reviews with
    | nil => exact absurd rfl hne
    | cons x rest => exact ⟨x, rest, rfl⟩
  cases hc : client (summaryRequest model_name company_name company_intro (x :: rest) lang) with
  | error e => simp [summarize_reviews, hc]
  | ok s => simp [summarize_reviews, hc]

/-- C10: any language code other than "ja", "en" and "zh" silently falls
back to the Japanese instruction segment — the whole call behaves exactly
as with `lang = "ja"`, and for a non-empty review list the completion
request is still issued (no error for the unrecognized language). -/
theorem summarize_reviews_lang_fallback
    (lang : String) (h1 : lang ≠ "ja") (h2 : lang ≠ "en") (h3 : lang ≠ "zh")
    (client : ChatRequest → Except Unit String)
    (model_name company_name company_intro : String) (reviews : List String) :
    summarize_reviews client model_name company_name company_intro reviews lang
      = summarize_reviews client model_name company_name company_intro reviews "ja"
    ∧ (reviews ≠ [] →
        (summarize_reviews client model_name company_name company_intro reviews lang).2
          ≠ []) := by
  have hinstr : instructions_by_language lang = none := by
    simp [instructions_by_language, h1, h2, h3]
  have hja : instructions_by_language "ja" = some instructions_ja := rfl
  have hreq : summaryRequest model_name company_name company_intro reviews lang
      = summaryRequest model_name company_name company_intro reviews "ja" := by
    simp [summaryRequest, developerContent, hinstr, hja]
  constructor
  · cases reviews with
    | nil => rfl
    | cons x rest => simp only [summarize_reviews, hreq]
  · intro hne
    obtain ⟨x, rest, rfl⟩ : ∃ x rest, reviews = x :: rest := by
      cases reviews with
      | nil => exact absurd rfl hne
      | cons x rest => exact ⟨x, rest, rfl⟩
    cases hc : client (summaryRequest model_name company_name company_intro (x :: rest) lang) with
    | error e => simp [summarize_reviews, hc]
    | ok s => simp [summarize_reviews, hc]

/-- C7: when the login page is fetched but its markup has no anti-forgery
token input, or the input has no `value`, or an empty one, authentication
fails with `TokenMissing` and the login-submit post is never issued. -/
theorem login_token_missing
    (site : LoginSite) (username password : String) (doc : LoginDoc)
    (hdoc : site.loginPage = .ok doc)
    (htok : doc.csrfInput = none ∨ doc.csrfInput = some none
      ∨ doc.csrfInput = some (some "")) :
    (login_to_openwork site username password).1 = .error .TokenMissing
    ∧ ∀ payload, LoginReq.postLoginCheck payload
        ∉ (login_to_openwork site username password).2 := by
  rcases htok with h | h | h <;>
    simp [login_to_openwork, hdoc, h]

/-! ### Claim theorems about the filename sanitizer -/

/-- C5 (counterexample to the claim as stated): `é` is outside the ASCII
class `[A-Za-z0-9_-]`, yet `safe_filename` keeps it because Python's
`str.isalnum` accepts Unicode letters, while the spec's character class
would replace it with an underscore. -/
theorem safe_filename_keeps_unicode_alnum :
    safe_filename "é" = "é" ∧ spec_safe_filename "é" = "_"
    ∧ ("é" : String) ≠ "_" := by
  refine ⟨by decide, by decide, by decide⟩

/-- C5 (amended): `safe_filename` replaces, one-for-one, every character
that is neither a Python-alphanumeric (Unicode letters and digits
included) nor `-` nor `_` with an underscore and keeps all others, so the
output always has the length of the input; on ASCII-only input this
coincides exactly with the spec's class `[A-Za-z0-9_-]`, and the spec's
example holds. -/
theorem safe_filename_ascii_and_example :
    (∀ name : String, (∀ c ∈ name.data, c.toNat < 128) →
      safe_filename name = spec_safe_filename name)
    ∧ (∀ name : String, (safe_filename name).data.length = name.data.length)
    ∧ safe_filename "Acme Corp / Japan!" = "Acme_Corp___Japan_" := by
  have key : ∀ l : List Char, (∀ c ∈ l, c.toNat < 128) →
      l.map (fun c => if pyIsAlnum c || c = '-' || c = '_' then c else '_')
        = l.map (fun c => if c.isAlphanum || c = '-' || c = '_' then c else '_') := by
    intro l
    induction l with
    | nil => intro _; rfl
    | cons c cs ih =>
      intro hl
      have hc : c.toNat < 128 := hl c (List.mem_cons_self c cs)
      have hpy : pyIsAlnum c = c.isAlphanum := by
        have e1 : decide (0xC0 ≤ c.toNat) = false := by
          simp only [decide_eq_false_iff_not]; omega
        have e2 : decide (0x3041 ≤ c.toNat) = false := by
          simp only [decide_eq_false_iff_not]; omega
        have e3 : decide (0x30A1 ≤ c.toNat) = false := by
          simp only [decide_eq_false_iff_not]; omega
        have e4 : decide (0x4E00 ≤ c.toNat) = false := by
          simp only [decide_eq_false_iff_not]; omega
        simp [pyIsAlnum, e1, e2, e3, e4]
      simp only [List.map_cons, hpy,
        ih (fun b hb => hl b (List.mem_cons_of_mem c hb))]
  refine ⟨?_, ?_, by decide⟩
  · intro name h
    show String.mk _ = String.mk _
    rw [key name.data h]
  · intro name
    show (name.data.map _).length = name.data.length
    exact List.length_map name.data _

/-! ### Concrete example servers for the witnesses -/

/-- A first listing page: a review dated 10 and an undated review. -/
def artsEx1 : List Article :=
  [{ date := .parsed 10, content := "r1" }, { date := .absent, content := "r2" }]

/-- A second listing page: a single review dated 1 (older than cutoff 5). -/
def artsEx2 : List Article :=
  [{ date := .parsed 1, content := "old" }]

/-- Server: fresh page 1, page 2 starts with an out-of-scope review. -/
def pagesEx1 : Nat → PageResponse
  | 0 => .noAnchor
  | 1 => .page artsEx1
  | 2 => .page artsEx2
  | _ + 3 => .noAnchor

/-- The articles of the pages before the stopping page of `pagesEx1`. -/
def artsOfEx1 : Nat → List Article := fun _ => artsEx1

/-- Server: a single fresh page, then no review container. -/
def pagesEx3 : Nat → PageResponse
  | 0 => .noAnchor
  | 1 => .page [{ date := .parsed 10, content := "r1" }]
  | _ + 2 => .noAnchor

/-- The articles of page 1 of `pagesEx3`. -/
def artsOfEx3 : Nat → List Article :=
  fun _ => [{ date := .parsed 10, content := "r1" }]

/-- Server: fresh page 1, then an exception while fetching page 2. -/
def pagesEx4 : Nat → PageResponse
  | 0 => .noAnchor
  | 1 => .page artsEx1
  | 2 => .fetchError
  | _ + 3 => .noAnchor

/-- A login page without the CSRF token input. -/
def siteEx : LoginSite :=
  { loginPage := .ok { csrfInput := none }, loginCheck := .ok (), myTop := .ok "" }

/-! ### Witnesses -/

/-- Witness for C1, at the server `pagesEx1` with cutoff 5. -/
theorem scrape_reviews_cutoff_invariant_witness : (5 : Int) ≤ 10 :=
  (scrape_reviews_cutoff_invariant pagesEx1 5 12).1
    { date := some 10, content := "r1" } (by decide) 10 rfl

/-- Witness for C2: page 2 of `pagesEx1` stops at its first item. -/
theorem scrape_reviews_stops_at_first_old_witness :
    scrape_reviews pagesEx1 5 12
      = joinLists ((pagesFrom 1 (2 - 1)).map fun q => reviewsOfArticles (artsOfEx1 q))
        ++ reviewsOfArticles (artsEx2.take 0)
    ∧ scrapeRequests pagesEx1 5 12 = pagesFrom 1 2 :=
  scrape_reviews_stops_at_first_old pagesEx1 5 12 artsOfEx1 2 0 artsEx2
    { date := .parsed 1, content := "old" } 1
    (by omega) (by omega)
    (fun q hq1 hq2 => by
      have : q = 1 := by omega
      subst this
      exact ⟨rfl, by decide, by decide⟩)
    rfl rfl rfl (by decide)
    (fun i b hi hb => absurd hi (by omega))

/-- Witness for C3, at the all-fresh server `pagesEx3`. -/
theorem scrape_reviews_collects_all_fresh_witness :
    ∃ P, P ≤ 12 ∧
      scrape_reviews pagesEx3 5 12
        = joinLists ((pagesFrom 1 P).map fun q => reviewsOfArticles (artsOfEx3 q)) ∧
      (∀ q, 1 ≤ q → q ≤ P → pagesEx3 q = .page (artsOfEx3 q) ∧ artsOfEx3 q ≠ []) ∧
      (P = 12 ∨ pagesEx3 (P + 1) = .noAnchor ∨
        (pagesEx3 (P + 1) = .page (artsOfEx3 (P + 1)) ∧ artsOfEx3 (P + 1) = [])) :=
  scrape_reviews_collects_all_fresh pagesEx3 5 12 artsOfEx3
    (fun q hq => by
      match q with
      | 0 => exact Or.inl rfl
      | 1 => exact Or.inr ⟨rfl, by decide⟩
      | n + 2 => exact Or.inl rfl)

/-- Witness for C4: the fetch exception at page 2 of `pagesEx4` returns
the page-1 harvest. -/
theorem scrape_reviews_exception_recovery_witness :
    scrape_reviews pagesEx4 5 12
      = joinLists ((pagesFrom 1 (2 - 1)).map fun q => reviewsOfArticles (artsOfEx1 q))
    ∧ scrapeRequests pagesEx4 5 12 = pagesFrom 1 2 :=
  (scrape_reviews_exception_recovery pagesEx4 5 12 artsOfEx1 2 (by omega) (by omega)
    (fun q hq1 hq2 => by
      have : q = 1 := by omega
      subst this
      exact ⟨rfl, by decide, by decide⟩)).1 rfl

/-- Witness for C9: the undated second item of page 1 of `pagesEx1` is
returned with date `none`. -/
theorem scrape_reviews_undated_included_witness :
    ({ date := none, content := "r2" } : Review) ∈ scrape_reviews pagesEx1 5 12 :=
  (scrape_reviews_undated_included pagesEx1 5 12 artsOfEx1 1 1 artsEx1
    { date := .absent, content := "r2" }
    (by omega) (by omega)
    (fun q hq1 hq2 => absurd hq2 (by omega))
    rfl rfl rfl
    (fun i b hi hb => by
      have : i = 0 := by omega
      subst this
      have hb' : some { date := DateField.parsed 10, content := "r1" } = some b := by
        simpa [artsEx1, List.get?] using hb
      cases hb'
      decide)).2

/-- Witness for C5's amended claim, at the spec's own example input. -/
theorem safe_filename_ascii_and_example_witness :
    safe_filename "Acme Corp / Japan!" = spec_safe_filename "Acme Corp / Japan!" :=
  safe_filename_ascii_and_example.1 "Acme Corp / Japan!" (by decide)

/-- Witness for C6's amended claim, at a one-review input. -/
theorem summarize_reviews_segments_witness :
    substrP (wrapReview "good").data (reviewsContent ["good"]).data :=
  (summarize_reviews_segments okClient "m" "Acme Corp" "intro" "ja" ["good"]
    (by decide)).2.2.1 "good" (by decide)

/-- Witness for C7, at a login page with no token input. -/
theorem login_token_missing_witness :
    (login_to_openwork siteEx "u" "p").1 = .error .TokenMissing
    ∧ LoginReq.postLoginCheck [] ∉ (login_to_openwork siteEx "u" "p").2 :=
  ⟨(login_token_missing siteEx "u" "p" { csrfInput := none } rfl (Or.inl rfl)).1,
   (login_token_missing siteEx "u" "p" { csrfInput := none } rfl (Or.inl rfl)).2 []⟩

/-- Witness for C8, at the empty list and a one-review list. -/
theorem summarize_reviews_empty_input_witness :
    (summarize_reviews okClient "m" "Acme Corp" "intro" [] "ja").1
      = .error .EmptyInput
    ∧ (summarize_reviews okClient "m" "Acme Corp" "intro" ["good"] "ja").1
      ≠ .error .EmptyInput :=
  ⟨(summarize_reviews_empty_input okClient "m" "Acme Corp" "intro" "ja").1.1,
   (summarize_reviews_empty_input okClient "m" "Acme Corp" "intro" "ja").2
     ["good"] (by decide)⟩

/-- Witness for C10, at the unrecognized language code "fr". -/
theorem summarize_reviews_lang_fallback_witness :
    summarize_reviews okClient "m" "Acme Corp" "intro" ["good"] "fr"
      = summarize_reviews okClient "m" "Acme Corp" "intro" ["good"] "ja"
    ∧ (summarize_reviews okClient "m" "Acme Corp" "intro" ["good"] "fr").2 ≠ [] :=
  ⟨(summarize_reviews_lang_fallback "fr" (by decide) (by decide) (by decide)
      okClient "m" "Acme Corp" "intro" ["good"]).1,
   (summarize_reviews_lang_fallback "fr" (by decide) (by decide) (by decide)
      okClient "m" "Acme Corp" "intro" ["good"]).2 (by decide)⟩
